import Mathlib

/-
Shallow embedding of the chord-selector engine.

The embedded source consists of two TypeScript modules:
  * `src/unnamed/part_000` — the order-preserving engine (note-name → MIDI
    conversion, CSV catalog parsing, voicing generation with inversions and a
    keyboard range policy, and ranked search);
  * `src/src/data/chordDatabase.ts` — an older sort-based variant of
    `calculateVoicings` (embedded below in namespace `ChordDatabase`).

Modelling conventions:
  * JS numbers holding MIDI pitches are modelled as `Int` (all arithmetic here
    is integral).
  * JS strings are modelled as Lean `String`; the operations used by the source
    (`trim`, `split`, `toLowerCase`, `includes`, `startsWith`, `.length`) are
    modelled explicitly over `String.data` so that everything evaluates by
    `decide`/`rfl`.  All catalog data is ASCII, where these agree with the JS
    operations code-unit for code-unit.
  * The JS `while` loops that repeatedly add an octave (12) are modelled with
    an explicit fuel argument that is provably sufficient, which keeps the
    definitions structurally recursive (hence kernel-evaluable); lemma
    `bumpAbove_eq_step` below shows the fuelled function satisfies exactly the
    loop's defining equation.
  * `Array.prototype.sort` (a stable sort by the ECMAScript standard) is
    modelled by `List.insertionSort`, which is stable.
  * The regular expression `^([^,]+),"([^"]+)",([^,]+),(.+)$` used to split a
    CSV line is deterministic (each `[^x]+` group is closed under failure of
    backtracking), so it is modelled by the equivalent direct matcher
    `matchCsvLine`.
-/

/-! ### JS string primitives -/

/-- Model of `String.prototype.trim` on a list of characters: drop whitespace
from both ends. -/
def trimChars (l : List Char) : List Char :=
  ((l.dropWhile Char.isWhitespace).reverse.dropWhile Char.isWhitespace).reverse

/-- Model of `String.prototype.trim`. -/
def jsTrim (s : String) : String := String.mk (trimChars s.data)

/-- Model of `String.prototype.split(sep)` for a one-character separator:
`splitOnChar c l` cuts `l` at every occurrence of `c` (always nonempty). -/
def splitOnChar (c : Char) : List Char → List (List Char)
  | [] => [[]]
  | x :: xs =>
    if x = c then [] :: splitOnChar c xs
    else
      match splitOnChar c xs with
      | [] => [[x]]
      | h :: t => (x :: h) :: t

/-- Model of `String.prototype.toLowerCase` (per-character lowering; exact for
the ASCII catalog data). -/
def toLowerStr (s : String) : String := String.mk (s.data.map Char.toLower)

/-- Helper for `includes`: does `l` contain `sub` as a contiguous sublist? -/
def containsSub (sub : List Char) : List Char → Bool
  | [] => sub.isEmpty
  | x :: xs => sub.isPrefixOf (x :: xs) || containsSub sub xs

/-- Model of `s.includes(pattern)`. -/
def strIncludes (s pattern : String) : Bool := containsSub pattern.data s.data

/-- Model of `a.localeCompare(b)` as plain lexicographic character comparison
(the spec's "case-insensitive lexicographic order"; both arguments are already
lowercased at the call site). -/
def lexCompareChars : List Char → List Char → Int
  | [], [] => 0
  | [], _ :: _ => -1
  | _ :: _, [] => 1
  | a :: as, b :: bs =>
    if a < b then -1 else if b < a then 1 else lexCompareChars as bs

/-! ### Pitch mapper (`noteToMidi`, `src/unnamed/part_000` lines 18–38) -/

/-- The `noteMap` object literal from `noteToMidi`. -/
def noteMap (s : String) : Option Int :=
  if s = "C" then some 0 else if s = "C#" then some 1 else if s = "Db" then some 1
  else if s = "D" then some 2 else if s = "D#" then some 3 else if s = "Eb" then some 3
  else if s = "E" then some 4
  else if s = "F" then some 5 else if s = "F#" then some 6 else if s = "Gb" then some 6
  else if s = "G" then some 7 else if s = "G#" then some 8 else if s = "Ab" then some 8
  else if s = "A" then some 9 else if s = "A#" then some 10 else if s = "Bb" then some 10
  else if s = "B" then some 11
  else none

/-- `noteToMidi`: map a note-name label to a MIDI pitch; unknown labels fall
back to 60 (middle C), known labels land in the fourth octave. -/
def noteToMidi (noteName : String) : Int :=
  match noteMap (jsTrim noteName) with
  | none => 60
  | some baseNote => baseNote + 60

/-! ### Octave-raising loop

The source contains (twice) the loop
`while (note <= prev) { note += 12; }`.
`bumpAboveAux` runs it on explicit fuel; `bumpAbove` supplies fuel
`(prev + 12 - x).toNat`, which lemma `bumpAbove_eq_step` proves sufficient. -/

def bumpAboveAux : ℕ → Int → Int → Int
  | 0, _, x => x
  | fuel + 1, prev, x => if x ≤ prev then bumpAboveAux fuel prev (x + 12) else x

/-- Smallest value of the form `x + 12 * k` (`k : ℕ`) strictly above `prev`:
the result of the source's octave-raising `while` loop. -/
def bumpAbove (prev x : Int) : Int := bumpAboveAux (prev + 12 - x).toNat prev x

/-! ### Note-list conversion (`convertChordNotesToMidi`, lines 42–64) -/

/-- The `for` loop of `convertChordNotesToMidi`: each note is raised by octaves
until strictly above the previously accepted pitch. -/
def convertGo (prev : Int) : List String → List Int
  | [] => []
  | n :: rest =>
    let noteMidi := bumpAbove prev (noteToMidi n)
    noteMidi :: convertGo noteMidi rest

/-- `convertChordNotesToMidi`: first note mapped as-is, subsequent notes raised
by octaves until strictly ascending. -/
def convertChordNotesToMidi : List String → List Int
  | [] => []
  | n :: rest =>
    let rootMidi := noteToMidi n
    rootMidi :: convertGo rootMidi rest

/-! ### Data model -/

/-- `ChordData` (the `ChordData` interface). -/
structure ChordData where
  name : String
  notes : List String
  midiNotes : List Int
  type : String
  extension : String
deriving DecidableEq

/-- `ChordVoicing` (the `ChordVoicing` interface). -/
structure ChordVoicing where
  name : String
  notes : List Int
deriving DecidableEq

/-! ### Catalog parser (`parseChordData`, lines 84–112) -/

/-- Deterministic matcher for the line regex
`^([^,]+),"([^"]+)",([^,]+),(.+)$`: returns the four captured groups
(name, quoted note list, category, subcategory). -/
def matchCsvLine (l : List Char) : Option (List Char × List Char × List Char × List Char) :=
  let g1 := l.takeWhile (· ≠ ',')
  match g1, l.dropWhile (· ≠ ',') with
  | _ :: _, ',' :: '"' :: r2 =>
    let g2 := r2.takeWhile (· ≠ '"')
    match g2, r2.dropWhile (· ≠ '"') with
    | _ :: _, '"' :: ',' :: r4 =>
      let g3 := r4.takeWhile (· ≠ ',')
      match g3, r4.dropWhile (· ≠ ',') with
      | _ :: _, ',' :: g4 =>
        match g4 with
        | [] => none
        | _ :: _ => some (g1, g2, g3, g4)
      | _, _ => none
    | _, _ => none
  | _, _ => none

/-- One iteration of the parsing loop: trim the line, skip it when blank or
when the regex does not match, otherwise build a `ChordData`. -/
def parseLine (line : String) : Option ChordData :=
  let t := trimChars line.data
  if t = [] then none
  else
    match matchCsvLine t with
    | none => none
    | some (nameF, notesStr, typeF, extF) =>
      let notes := (splitOnChar ',' notesStr).map (fun n => String.mk (trimChars n))
      some { name := String.mk (trimChars nameF)
             notes := notes
             midiNotes := convertChordNotesToMidi notes
             type := String.mk (trimChars typeF)
             extension := String.mk (trimChars extF) }

/-- The parsing loop over the data lines (header already removed). -/
def parseLines (lines : List String) : List ChordData :=
  lines.filterMap parseLine

/-- `parseChordData`: trim the raw text, split into lines, skip the header row,
parse each remaining line, dropping ill-formed ones. -/
def parseChordData (csvText : String) : List ChordData :=
  parseLines (((splitOnChar '\n' (trimChars csvText.data)).drop 1).map String.mk)

/-! ### Voicing generator (`calculateVoicings`, lines 120–188) -/

/-- `Math.max(...l)` for the nonempty lists this code applies it to. -/
def listMax : List Int → Int
  | [] => 0
  | x :: xs => xs.foldl max x

/-- The re-normalization loop inside `calculateVoicings`: move each note up by
octaves until strictly above the previous (already normalized) note. -/
def renormGo (prev : Int) : List Int → List Int
  | [] => []
  | x :: rest =>
    let note := bumpAbove prev x
    note :: renormGo note rest

/-- Left-to-right re-normalization: keep the first note, raise every later note
by octaves until the sequence is strictly ascending. -/
def renormalize : List Int → List Int
  | [] => []
  | x :: rest => x :: renormGo x rest

/-- Inversion label: `inv === 1 ? '1st Inv' : inv === 2 ? '2nd Inv' : '3rd Inv'`. -/
def inversionName (inv : ℕ) : String :=
  if inv = 1 then "1st Inv" else if inv = 2 then "2nd Inv" else "3rd Inv"

/-- Body of the inversion loop of `calculateVoicings` for inversion index
`inv`: raise the first `inv` notes by an octave, rotate them to the end,
re-normalize, and shift the whole voicing down one octave when its highest
note exceeds the keyboard maximum 83. -/
def makeInversion (midiNotes : List Int) (inv : ℕ) : ChordVoicing :=
  let rotatedNotes := midiNotes.drop inv ++ (midiNotes.take inv).map (· + 12)
  let sortedInversion := renormalize rotatedNotes
  let highestNote := listMax sortedInversion
  if highestNote > 83 then
    { name := inversionName inv, notes := sortedInversion.map (· - 12) }
  else
    { name := inversionName inv, notes := sortedInversion }

/-- `calculateVoicings` (order-preserving variant, `src/unnamed/part_000`):
root position in authored order followed by up to three inversions. -/
def calculateVoicings (chord : ChordData) : List ChordVoicing :=
  if chord.midiNotes = [] then []
  else
    let numInversions := min chord.midiNotes.length 4
    { name := "Root", notes := chord.midiNotes }
      :: (List.range' 1 (numInversions - 1)).map (makeInversion chord.midiNotes)

/-! ### Sort-based voicing variant (`src/src/data/chordDatabase.ts`, lines 82–124) -/

namespace ChordDatabase

/-- `firstInv[0] += 12` applied to a copy of the sorted note list. -/
def raiseFirst : List Int → List Int
  | [] => []
  | x :: xs => (x + 12) :: xs

/-- `secondInv[0] += 12; secondInv[1] += 12` applied to a copy. -/
def raiseFirstTwo : List Int → List Int
  | x :: y :: xs => (x + 12) :: (y + 12) :: xs
  | l => l

/-- `calculateVoicings` (sort-based variant): sort ascending, then build the
root voicing plus at most two inversions by raising the lowest one or two
notes an octave and re-sorting. -/
def calculateVoicings (chord : ChordData) : List ChordVoicing :=
  if chord.midiNotes = [] then []
  else
    let sortedNotes := List.insertionSort (· ≤ ·) chord.midiNotes
    { name := "Root", notes := sortedNotes }
      :: ((if 1 < sortedNotes.length then
            [{ name := "1st Inv",
               notes := List.insertionSort (· ≤ ·) (raiseFirst sortedNotes) }]
          else [])
        ++ (if 2 < sortedNotes.length then
            [{ name := "2nd Inv",
               notes := List.insertionSort (· ≤ ·) (raiseFirstTwo sortedNotes) }]
          else []))

end ChordDatabase

/-! ### Search ranker (`searchChords`, lines 202–243) -/

/-- The five-tier comparator passed to `results.sort` in `searchChords`
(negative means `a` ranks before `b`). -/
def searchCompare (lowerQuery : String) (a b : ChordData) : Int :=
  let aName := toLowerStr a.name
  let bName := toLowerStr b.name
  if aName = lowerQuery ∧ bName ≠ lowerQuery then -1
  else if bName = lowerQuery ∧ aName ≠ lowerQuery then 1
  else
    let aStartsWith := lowerQuery.data.isPrefixOf aName.data
    let bStartsWith := lowerQuery.data.isPrefixOf bName.data
    if aStartsWith ∧ ¬ bStartsWith then -1
    else if bStartsWith ∧ ¬ aStartsWith then 1
    else
      let aIsSimple := a.type = "Major" ∧ a.extension = "Triad"
      let bIsSimple := b.type = "Major" ∧ b.extension = "Triad"
      if aIsSimple ∧ ¬ bIsSimple then -1
      else if bIsSimple ∧ ¬ aIsSimple then 1
      else if aName.length ≠ bName.length then (aName.length : Int) - (bName.length : Int)
      else lexCompareChars aName.data bName.data

/-- `searchChords`, with the loaded catalog passed explicitly (the source
obtains it from the cache): empty trimmed query short-circuits to `[]`;
otherwise filter by case-insensitive substring on the (untrimmed) query, sort
by the five-tier comparator, and keep the first 20 results. -/
def searchChords (chords : List ChordData) (query : String) : List ChordData :=
  if jsTrim query = "" then []
  else
    let lowerQuery := toLowerStr query
    let results := chords.filter fun chord => strIncludes (toLowerStr chord.name) lowerQuery
    let sortedResults :=
      List.insertionSort (fun a b => searchCompare lowerQuery a b ≤ 0) results
    sortedResults.take 20

/-! ### Lemmas about the octave-raising loop -/

theorem bumpAboveAux_spec :
    ∀ (fuel : ℕ) (prev x : Int), prev + 12 - x ≤ fuel →
      prev < bumpAboveAux fuel prev x ∧
      ∃ m : ℕ, bumpAboveAux fuel prev x = x + 12 * m ∧
        ∀ j : ℕ, j < m → x + 12 * j ≤ prev := by
  intro fuel
  induction fuel with
  | zero =>
    intro prev x hfuel
    refine ⟨by simp [bumpAboveAux]; omega, 0, by simp [bumpAboveAux], by omega⟩
  | succ fuel ih =>
    intro prev x hfuel
    by_cases hx : x ≤ prev
    · have hstep : bumpAboveAux (fuel + 1) prev x = bumpAboveAux fuel prev (x + 12) := by
        simp [bumpAboveAux, hx]
      obtain ⟨h1, m, hm, hj⟩ := ih prev (x + 12) (by push_cast at hfuel ⊢; omega)
      refine ⟨by rw [hstep]; exact h1, m + 1, by rw [hstep, hm]; push_cast; ring, ?_⟩
      intro j hjm
      cases j with
      | zero => simpa using hx
      | succ j' => have := hj j' (by omega); push_cast at this ⊢; omega
    · refine ⟨by simp [bumpAboveAux, hx]; omega, 0, by simp [bumpAboveAux, hx], by omega⟩

theorem bumpAbove_spec (prev x : Int) :
    prev < bumpAbove prev x ∧
    ∃ m : ℕ, bumpAbove prev x = x + 12 * m ∧ ∀ j : ℕ, j < m → x + 12 * j ≤ prev :=
  bumpAboveAux_spec _ prev x (Int.self_le_toNat _)

theorem bumpAbove_gt (prev x : Int) : prev < bumpAbove prev x :=
  (bumpAbove_spec prev x).1

theorem bumpAbove_mod (prev x : Int) : bumpAbove prev x % 12 = x % 12 := by
  obtain ⟨-, m, hm, -⟩ := bumpAbove_spec prev x
  omega

theorem bumpAbove_of_gt {prev x : Int} (h : prev < x) : bumpAbove prev x = x := by
  obtain ⟨-, m, hm, hj⟩ := bumpAbove_spec prev x
  rcases Nat.eq_zero_or_pos m with rfl | hm0
  · simpa using hm
  · have := hj 0 hm0
    omega

theorem bumpAbove_le_of_le {prev x : Int} (h : x ≤ prev) : bumpAbove prev x ≤ prev + 12 := by
  obtain ⟨hgt, m, hm, hj⟩ := bumpAbove_spec prev x
  rcases Nat.eq_zero_or_pos m with rfl | hm0
  · omega
  · have := hj (m - 1) (by omega)
    have hcast : ((m - 1 : ℕ) : Int) = (m : Int) - 1 := by omega
    omega

theorem bumpAbove_ge (prev x : Int) : x ≤ bumpAbove prev x := by
  obtain ⟨-, m, hm, -⟩ := bumpAbove_spec prev x
  omega

theorem bumpAboveAux_of_gt (fuel : ℕ) {prev x : Int} (h : prev < x) :
    bumpAboveAux fuel prev x = x := by
  cases fuel with
  | zero => rfl
  | succ fuel =>
    have hnx : ¬ x ≤ prev := by omega
    simp [bumpAboveAux, hnx]

theorem bumpAboveAux_fuel_irrel :
    ∀ (f₁ f₂ : ℕ) (prev x : Int), prev + 12 - x ≤ f₁ → prev + 12 - x ≤ f₂ →
      bumpAboveAux f₁ prev x = bumpAboveAux f₂ prev x := by
  intro f₁
  induction f₁ with
  | zero =>
    intro f₂ prev x h₁ h₂
    rw [bumpAboveAux_of_gt 0 (by omega), bumpAboveAux_of_gt f₂ (by omega)]
  | succ f₁ ih =>
    intro f₂ prev x h₁ h₂
    by_cases hx : x ≤ prev
    · cases f₂ with
      | zero => push_cast at h₂; omega
      | succ f₂ =>
        simp only [bumpAboveAux, if_pos hx]
        exact ih f₂ prev (x + 12) (by push_cast at h₁ ⊢; omega) (by push_cast at h₂ ⊢; omega)
    · rw [bumpAboveAux_of_gt (f₁ + 1) (by omega), bumpAboveAux_of_gt f₂ (by omega)]

/-- The fuelled `bumpAbove` satisfies exactly the defining equation of the
source's `while (note <= prev) note += 12` loop. -/
theorem bumpAbove_eq_step (prev x : Int) :
    bumpAbove prev x = if x ≤ prev then bumpAbove prev (x + 12) else x := by
  split
  case isTrue hx =>
    have h12 : (12 : Int) ≤ prev + 12 - x := by omega
    obtain ⟨k, hk⟩ : ∃ k, (prev + 12 - x).toNat = k + 1 :=
      ⟨(prev + 12 - x).toNat - 1, by omega⟩
    unfold bumpAbove
    rw [hk]
    simp only [bumpAboveAux, if_pos hx]
    exact bumpAboveAux_fuel_irrel k _ prev (x + 12) (by omega) (Int.self_le_toNat _)
  case isFalse hx =>
    exact bumpAbove_of_gt (by omega)

/-! ### Lemmas about re-normalization -/

theorem renormGo_length : ∀ (l : List Int) (prev : Int), (renormGo prev l).length = l.length
  | [], _ => rfl
  | _ :: rest, _ => by simp [renormGo, renormGo_length rest]

theorem renormalize_length (l : List Int) : (renormalize l).length = l.length := by
  cases l with
  | nil => rfl
  | cons x rest => simp [renormalize, renormGo_length]

theorem renormGo_chain : ∀ (l : List Int) (prev : Int),
    List.Chain (· < ·) prev (renormGo prev l)
  | [], _ => List.Chain.nil
  | x :: rest, prev =>
    List.Chain.cons (bumpAbove_gt prev x) (renormGo_chain rest (bumpAbove prev x))

theorem renormalize_chain' (l : List Int) : List.Chain' (· < ·) (renormalize l) := by
  cases l with
  | nil => trivial
  | cons x rest => exact renormGo_chain rest x

theorem renormGo_mod : ∀ (l : List Int) (prev : Int),
    (renormGo prev l).map (· % 12) = l.map (· % 12)
  | [], _ => rfl
  | x :: rest, prev => by simp [renormGo, bumpAbove_mod, renormGo_mod rest]

theorem renormalize_mod (l : List Int) : (renormalize l).map (· % 12) = l.map (· % 12) := by
  cases l with
  | nil => rfl
  | cons x rest => simp [renormalize, renormGo_mod]

theorem convertGo_eq_renormGo : ∀ (l : List String) (prev : Int),
    convertGo prev l = renormGo prev (l.map noteToMidi)
  | [], _ => rfl
  | n :: rest, prev => by simp [convertGo, renormGo, convertGo_eq_renormGo rest]

/-! ### Example entries used by witnesses -/

/-- C-major triad entry as the parser would produce it. -/
def exampleCMajor : ChordData :=
  { name := "C", notes := ["C", "E", "G"], midiNotes := [60, 64, 67],
    type := "Major", extension := "Triad" }

/-- Authored four-note entry (spec §8 example `["F","G#","C","D"]`). -/
def exampleFSharp : ChordData :=
  { name := "F4", notes := ["F", "G#", "C", "D"], midiNotes := [65, 68, 72, 74],
    type := "Sus", extension := "Other" }

/-! ### C1 — voicing count and root voicing -/

/-- C1: for every `ChordData` entry with `n = length midiNotes ≥ 1`,
`calculateVoicings` returns exactly `min n 4` voicings, and the first voicing
is labelled `"Root"` with pitch sequence equal to `entry.midiNotes`. -/
theorem calculateVoicings_count_and_root (entry : ChordData)
    (h : 1 ≤ entry.midiNotes.length) :
    (calculateVoicings entry).length = min entry.midiNotes.length 4 ∧
    (calculateVoicings entry).headD ⟨"", []⟩ =
      { name := "Root", notes := entry.midiNotes } := by
  have hne : entry.midiNotes ≠ [] := by
    cases hmn : entry.midiNotes <;> simp_all
  constructor
  · simp only [calculateVoicings, if_neg hne, List.length_cons, List.length_map,
      List.length_range']
    omega
  · simp [calculateVoicings, hne]

theorem calculateVoicings_count_and_root_witness :
    1 ≤ exampleCMajor.midiNotes.length ∧
    ((calculateVoicings exampleCMajor).length = min exampleCMajor.midiNotes.length 4 ∧
     (calculateVoicings exampleCMajor).headD ⟨"", []⟩ =
       { name := "Root", notes := exampleCMajor.midiNotes }) :=
  ⟨by decide, calculateVoicings_count_and_root exampleCMajor (by decide)⟩

/-! ### C6 — enharmonic aliases -/

/-- C6: the unmodified letter `"C"` maps to pitch 60 and each enharmonic
sharp/flat pair (sharp of one letter, flat of the next) maps to the identical
pitch number under `noteToMidi`. -/
theorem noteToMidi_enharmonic :
    noteToMidi "C" = 60 ∧
    noteToMidi "C#" = noteToMidi "Db" ∧
    noteToMidi "D#" = noteToMidi "Eb" ∧
    noteToMidi "F#" = noteToMidi "Gb" ∧
    noteToMidi "G#" = noteToMidi "Ab" ∧
    noteToMidi "A#" = noteToMidi "Bb" := by decide

/-! ### C2 — per-voicing invariants -/

/-- C2: for every entry whose `midiNotes` are strictly increasing and nonempty,
every voicing produced by `calculateVoicings` has exactly `n` pitches, its
pitches are strictly increasing, and its pitches mod 12 are a permutation of
the entry's pitches mod 12. -/
theorem calculateVoicings_invariants (entry : ChordData)
    (hn : 1 ≤ entry.midiNotes.length)
    (hs : List.Chain' (· < ·) entry.midiNotes) :
    ∀ v ∈ calculateVoicings entry,
      v.notes.length = entry.midiNotes.length ∧
      List.Chain' (· < ·) v.notes ∧
      (v.notes.map (· % 12)).Perm (entry.midiNotes.map (· % 12)) := by
  intro v hv
  have hne : entry.midiNotes ≠ [] := by
    cases hmn : entry.midiNotes <;> simp_all
  simp only [calculateVoicings, if_neg hne, List.mem_cons, List.mem_map,
    List.mem_range'] at hv
  rcases hv with rfl | ⟨k, -, rfl⟩
  · exact ⟨rfl, hs, List.Perm.refl _⟩
  · have hmodrot :
        ((entry.midiNotes.drop k ++ (entry.midiNotes.take k).map (· + 12)).map
            (· % 12)).Perm (entry.midiNotes.map (· % 12)) := by
      rw [List.map_append, List.map_map]
      have h12 : (entry.midiNotes.take k).map ((· % 12) ∘ (· + 12)) =
          (entry.midiNotes.take k).map (· % 12) :=
        List.map_congr_left fun x _ => by simp only [Function.comp_apply]; omega
      have hsplit : entry.midiNotes.map (· % 12) =
          (entry.midiNotes.take k).map (· % 12) ++ (entry.midiNotes.drop k).map (· % 12) := by
        rw [← List.map_append, List.take_append_drop]
      rw [h12, hsplit]
      exact List.perm_append_comm
    have hlen : (renormalize
        (entry.midiNotes.drop k ++ (entry.midiNotes.take k).map (· + 12))).length =
        entry.midiNotes.length := by
      rw [renormalize_length]
      simp
      omega
    have hchain := renormalize_chain'
      (entry.midiNotes.drop k ++ (entry.midiNotes.take k).map (· + 12))
    have hmod := renormalize_mod
      (entry.midiNotes.drop k ++ (entry.midiNotes.take k).map (· + 12))
    simp only [makeInversion]
    split
    case isTrue hhigh =>
      refine ⟨by simpa using hlen, ?_, ?_⟩
      · simp only
        rw [List.chain'_map]
        exact hchain.imp fun a b h => by omega
      · simp only
        rw [List.map_map]
        have heq : (renormalize (entry.midiNotes.drop k ++
            (entry.midiNotes.take k).map (· + 12))).map ((· % 12) ∘ (· - 12)) =
            (renormalize (entry.midiNotes.drop k ++
            (entry.midiNotes.take k).map (· + 12))).map (· % 12) :=
          List.map_congr_left fun x _ => by simp only [Function.comp_apply]; omega
        rw [heq, hmod]
        exact hmodrot
    case isFalse hhigh =>
      refine ⟨hlen, hchain, ?_⟩
      simp only
      rw [hmod]
      exact hmodrot

theorem calculateVoicings_invariants_witness :
    (1 ≤ exampleFSharp.midiNotes.length ∧
      List.Chain' (· < ·) exampleFSharp.midiNotes) ∧
    ∀ v ∈ calculateVoicings exampleFSharp,
      v.notes.length = exampleFSharp.midiNotes.length ∧
      List.Chain' (· < ·) v.notes ∧
      (v.notes.map (· % 12)).Perm (exampleFSharp.midiNotes.map (· % 12)) :=
  ⟨⟨by decide, by norm_num [exampleFSharp, List.chain'_cons]⟩,
    calculateVoicings_invariants exampleFSharp (by decide)
      (by norm_num [exampleFSharp, List.chain'_cons])⟩

/-! ### C3 — pitch assignment in the converter -/

/-- Position-wise description of the `convertChordNotesToMidi` loop: the value
accepted at position `i` of `convertGo prev l` is the mapped pitch of label
`l[i]` raised by `12 * m` for the least `m` making it strictly greater than the
previously accepted value. -/
theorem convertGo_getD (l : List String) :
    ∀ (prev : Int) (i : ℕ), i < l.length →
      ∃ m : ℕ,
        (convertGo prev l).getD i 0 = noteToMidi (l.getD i "") + 12 * m ∧
        (if i = 0 then prev else (convertGo prev l).getD (i - 1) 0) <
          (convertGo prev l).getD i 0 ∧
        ∀ j : ℕ, j < m →
          noteToMidi (l.getD i "") + 12 * j ≤
            (if i = 0 then prev else (convertGo prev l).getD (i - 1) 0) := by
  induction l with
  | nil => intro prev i hi; simp at hi
  | cons n rest ih =>
    intro prev i hi
    cases i with
    | zero =>
      obtain ⟨hgt, m, hm, hj⟩ := bumpAbove_spec prev (noteToMidi n)
      exact ⟨m, by simpa [convertGo] using hm, by simpa [convertGo] using hgt,
        fun j hjm => by simpa [convertGo] using hj j hjm⟩
    | succ i' =>
      obtain ⟨m, hm, hlt, hj⟩ := ih (bumpAbove prev (noteToMidi n)) i' (by simpa using hi)
      refine ⟨m, by simpa [convertGo] using hm, ?_, ?_⟩
      · cases i' with
        | zero => simpa [convertGo] using hlt
        | succ i'' => simpa [convertGo] using hlt
      · intro j hjm
        cases i' with
        | zero => simpa [convertGo] using hj j hjm
        | succ i'' => simpa [convertGo] using hj j hjm

/-- C3: for every nonempty label list, `convertChordNotesToMidi` accepts the
first label's mapped pitch as-is, and each subsequent accepted pitch is the
mapped pitch of its label raised by the fewest octaves making it strictly
greater than the previously accepted pitch; the result has the same length as
the label list and is strictly increasing. -/
theorem convertChordNotesToMidi_spec (notes : List String) (h : notes ≠ []) :
    (convertChordNotesToMidi notes).length = notes.length ∧
    (convertChordNotesToMidi notes).getD 0 0 = noteToMidi (notes.getD 0 "") ∧
    List.Chain' (· < ·) (convertChordNotesToMidi notes) ∧
    ∀ i : ℕ, i + 1 < notes.length →
      ∃ m : ℕ,
        (convertChordNotesToMidi notes).getD (i + 1) 0 =
          noteToMidi (notes.getD (i + 1) "") + 12 * m ∧
        (convertChordNotesToMidi notes).getD i 0 <
          (convertChordNotesToMidi notes).getD (i + 1) 0 ∧
        ∀ j : ℕ, j < m →
          noteToMidi (notes.getD (i + 1) "") + 12 * j ≤
            (convertChordNotesToMidi notes).getD i 0 := by
  cases notes with
  | nil => exact absurd rfl h
  | cons n rest =>
    refine ⟨?_, rfl, ?_, ?_⟩
    · simp [convertChordNotesToMidi, convertGo_eq_renormGo, renormGo_length]
    · show List.Chain' (· < ·) (noteToMidi n :: convertGo (noteToMidi n) rest)
      rw [convertGo_eq_renormGo]
      exact renormGo_chain (rest.map noteToMidi) (noteToMidi n)
    · intro i hi
      obtain ⟨m, hm, hlt, hj⟩ := convertGo_getD rest (noteToMidi n) i (by simpa using hi)
      refine ⟨m, by simpa [convertChordNotesToMidi, convertGo] using hm, ?_, ?_⟩
      · cases i with
        | zero => simpa [convertChordNotesToMidi, convertGo] using hlt
        | succ i'' => simpa [convertChordNotesToMidi, convertGo] using hlt
      · intro j hjm
        cases i with
        | zero => simpa [convertChordNotesToMidi, convertGo] using hj j hjm
        | succ i'' => simpa [convertChordNotesToMidi, convertGo] using hj j hjm

theorem convertChordNotesToMidi_spec_witness :
    (["F", "G#", "C", "D"] : List String) ≠ [] ∧
    ((convertChordNotesToMidi ["F", "G#", "C", "D"]).length =
        (["F", "G#", "C", "D"] : List String).length ∧
     (convertChordNotesToMidi ["F", "G#", "C", "D"]).getD 0 0 =
        noteToMidi ((["F", "G#", "C", "D"] : List String).getD 0 "") ∧
     List.Chain' (· < ·) (convertChordNotesToMidi ["F", "G#", "C", "D"]) ∧
     ∀ i : ℕ, i + 1 < (["F", "G#", "C", "D"] : List String).length →
       ∃ m : ℕ,
         (convertChordNotesToMidi ["F", "G#", "C", "D"]).getD (i + 1) 0 =
           noteToMidi ((["F", "G#", "C", "D"] : List String).getD (i + 1) "") + 12 * m ∧
         (convertChordNotesToMidi ["F", "G#", "C", "D"]).getD i 0 <
           (convertChordNotesToMidi ["F", "G#", "C", "D"]).getD (i + 1) 0 ∧
         ∀ j : ℕ, j < m →
           noteToMidi ((["F", "G#", "C", "D"] : List String).getD (i + 1) "") + 12 * j ≤
             (convertChordNotesToMidi ["F", "G#", "C", "D"]).getD i 0) :=
  ⟨by decide, convertChordNotesToMidi_spec ["F", "G#", "C", "D"] (by decide)⟩

/-! ### C5 — range policy for inversions -/

/-- Entry whose inversions remain above the keyboard window even after the
single corrective downward shift. -/
def exampleWide : ChordData :=
  { name := "wide", notes := [], midiNotes := [60, 100, 110], type := "", extension := "" }

/-- C5: the voicing emitted for inversion index `k ≥ 1` is obtained from the
raised-rotated-renormalized sequence by subtracting 12 from every element
exactly once when its maximum exceeds 83, and by leaving it unchanged
otherwise; the shift is never iterated — witnessed by `exampleWide`, whose
first inversion still tops out above 83 after the one shift. -/
theorem calculateVoicings_range_policy (entry : ChordData) (k : ℕ)
    (hk1 : 1 ≤ k) (hk : k < min entry.midiNotes.length 4) :
    (((calculateVoicings entry).getD k ⟨"", []⟩).name = inversionName k ∧
     (83 < listMax (renormalize
         (entry.midiNotes.drop k ++ (entry.midiNotes.take k).map (· + 12))) →
       ((calculateVoicings entry).getD k ⟨"", []⟩).notes =
         (renormalize
           (entry.midiNotes.drop k ++ (entry.midiNotes.take k).map (· + 12))).map
           (· - 12)) ∧
     (listMax (renormalize
         (entry.midiNotes.drop k ++ (entry.midiNotes.take k).map (· + 12))) ≤ 83 →
       ((calculateVoicings entry).getD k ⟨"", []⟩).notes =
         renormalize
           (entry.midiNotes.drop k ++ (entry.midiNotes.take k).map (· + 12)))) ∧
    (((calculateVoicings exampleWide).getD 1 ⟨"", []⟩).notes = [88, 98, 108] ∧
     83 < listMax ((calculateVoicings exampleWide).getD 1 ⟨"", []⟩).notes) := by
  have hne : entry.midiNotes ≠ [] := by
    cases hmn : entry.midiNotes <;> simp_all
  obtain ⟨k', rfl⟩ : ∃ k', k = k' + 1 := ⟨k - 1, by omega⟩
  have hgetD : (calculateVoicings entry).getD (k' + 1) ⟨"", []⟩ =
      makeInversion entry.midiNotes (k' + 1) := by
    simp only [calculateVoicings, if_neg hne, List.getD_cons_succ]
    have hlt : k' < ((List.range' 1 (min entry.midiNotes.length 4 - 1)).map
        (makeInversion entry.midiNotes)).length := by
      simp
      omega
    rw [List.getD_eq_getElem _ _ hlt, List.getElem_map, List.getElem_range']
    congr 1
    omega
  constructor
  · refine ⟨?_, ?_, ?_⟩
    · rw [hgetD]
      simp only [makeInversion]
      split <;> rfl
    · intro hhigh
      rw [hgetD]
      simp only [makeInversion]
      rw [if_pos (by omega)]
    · intro hlow
      rw [hgetD]
      simp only [makeInversion]
      rw [if_neg (by omega)]
  · constructor <;> decide

theorem calculateVoicings_range_policy_witness :
    (1 ≤ 1 ∧ 1 < min exampleWide.midiNotes.length 4) ∧
    ((((calculateVoicings exampleWide).getD 1 ⟨"", []⟩).name = inversionName 1 ∧
      (83 < listMax (renormalize
          (exampleWide.midiNotes.drop 1 ++ (exampleWide.midiNotes.take 1).map (· + 12))) →
        ((calculateVoicings exampleWide).getD 1 ⟨"", []⟩).notes =
          (renormalize
            (exampleWide.midiNotes.drop 1 ++
              (exampleWide.midiNotes.take 1).map (· + 12))).map (· - 12)) ∧
      (listMax (renormalize
          (exampleWide.midiNotes.drop 1 ++ (exampleWide.midiNotes.take 1).map (· + 12))) ≤ 83 →
        ((calculateVoicings exampleWide).getD 1 ⟨"", []⟩).notes =
          renormalize
            (exampleWide.midiNotes.drop 1 ++
              (exampleWide.midiNotes.take 1).map (· + 12)))) ∧
     (((calculateVoicings exampleWide).getD 1 ⟨"", []⟩).notes = [88, 98, 108] ∧
      83 < listMax ((calculateVoicings exampleWide).getD 1 ⟨"", []⟩).notes)) :=
  ⟨⟨le_refl 1, by decide⟩, calculateVoicings_range_policy exampleWide 1 (le_refl 1) (by decide)⟩

/-! ### C7 — pitch bounds of parsed entries -/

theorem noteMap_bounds (s : String) : ∀ b : Int, noteMap s = some b → 0 ≤ b ∧ b ≤ 11 := by
  intro b hb
  unfold noteMap at hb
  by_cases h0 : s = "C"
  · rw [if_pos h0] at hb; injection hb with h; omega
  rw [if_neg h0] at hb
  by_cases h1 : s = "C#"
  · rw [if_pos h1] at hb; injection hb with h; omega
  rw [if_neg h1] at hb
  by_cases h2 : s = "Db"
  · rw [if_pos h2] at hb; injection hb with h; omega
  rw [if_neg h2] at hb
  by_cases h3 : s = "D"
  · rw [if_pos h3] at hb; injection hb with h; omega
  rw [if_neg h3] at hb
  by_cases h4 : s = "D#"
  · rw [if_pos h4] at hb; injection hb with h; omega
  rw [if_neg h4] at hb
  by_cases h5 : s = "Eb"
  · rw [if_pos h5] at hb; injection hb with h; omega
  rw [if_neg h5] at hb
  by_cases h6 : s = "E"
  · rw [if_pos h6] at hb; injection hb with h; omega
  rw [if_neg h6] at hb
  by_cases h7 : s = "F"
  · rw [if_pos h7] at hb; injection hb with h; omega
  rw [if_neg h7] at hb
  by_cases h8 : s = "F#"
  · rw [if_pos h8] at hb; injection hb with h; omega
  rw [if_neg h8] at hb
  by_cases h9 : s = "Gb"
  · rw [if_pos h9] at hb; injection hb with h; omega
  rw [if_neg h9] at hb
  by_cases h10 : s = "G"
  · rw [if_pos h10] at hb; injection hb with h; omega
  rw [if_neg h10] at hb
  by_cases h11 : s = "G#"
  · rw [if_pos h11] at hb; injection hb with h; omega
  rw [if_neg h11] at hb
  by_cases h12 : s = "Ab"
  · rw [if_pos h12] at hb; injection hb with h; omega
  rw [if_neg h12] at hb
  by_cases h13 : s = "A"
  · rw [if_pos h13] at hb; injection hb with h; omega
  rw [if_neg h13] at hb
  by_cases h14 : s = "A#"
  · rw [if_pos h14] at hb; injection hb with h; omega
  rw [if_neg h14] at hb
  by_cases h15 : s = "Bb"
  · rw [if_pos h15] at hb; injection hb with h; omega
  rw [if_neg h15] at hb
  by_cases h16 : s = "B"
  · rw [if_pos h16] at hb; injection hb with h; omega
  rw [if_neg h16] at hb
  exact Option.noConfusion hb

theorem noteToMidi_bounds (s : String) : 60 ≤ noteToMidi s ∧ noteToMidi s ≤ 71 := by
  unfold noteToMidi
  cases hb : noteMap (jsTrim s) with
  | none => norm_num
  | some b =>
    obtain ⟨h1, h2⟩ := noteMap_bounds (jsTrim s) b hb
    exact ⟨by simp; omega, by simp; omega⟩

theorem convertGo_bounds :
    ∀ (l : List String) (prev : Int), 59 ≤ prev → ∀ i : ℕ, i < l.length →
      60 ≤ (convertGo prev l).getD i 0 ∧
      (convertGo prev l).getD i 0 ≤ prev + 12 * (i + 1) := by
  intro l
  induction l with
  | nil => intro prev _ i hi; simp at hi
  | cons n rest ih =>
    intro prev hprev i hi
    have hv := noteToMidi_bounds n
    have hm0lo : 60 ≤ bumpAbove prev (noteToMidi n) :=
      le_trans hv.1 (bumpAbove_ge prev (noteToMidi n))
    have hm0hi : bumpAbove prev (noteToMidi n) ≤ prev + 12 := by
      by_cases hc : noteToMidi n ≤ prev
      · exact bumpAbove_le_of_le hc
      · rw [bumpAbove_of_gt (by omega)]; omega
    cases i with
    | zero => exact ⟨by simpa [convertGo] using hm0lo, by simpa [convertGo] using hm0hi⟩
    | succ i' =>
      obtain ⟨h1, h2⟩ := ih (bumpAbove prev (noteToMidi n)) (by omega) i' (by simpa using hi)
      refine ⟨by simpa [convertGo] using h1, ?_⟩
      have heq : (convertGo prev (n :: rest)).getD (i' + 1) 0 =
          (convertGo (bumpAbove prev (noteToMidi n)) rest).getD i' 0 := by
        simp [convertGo]
      rw [heq]
      push_cast at h2 ⊢
      omega

theorem convertChordNotesToMidi_length (notes : List String) :
    (convertChordNotesToMidi notes).length = notes.length := by
  cases notes with
  | nil => rfl
  | cons n rest => simp [convertChordNotesToMidi, convertGo_eq_renormGo, renormGo_length]

theorem convertChordNotesToMidi_bounds :
    ∀ (notes : List String) (i : ℕ), i < notes.length →
      60 ≤ (convertChordNotesToMidi notes).getD i 0 ∧
      (convertChordNotesToMidi notes).getD i 0 ≤ 71 + 12 * i := by
  intro notes i hi
  cases notes with
  | nil => simp at hi
  | cons n rest =>
    have hv := noteToMidi_bounds n
    cases i with
    | zero =>
      exact ⟨by simpa [convertChordNotesToMidi] using hv.1,
        by simpa [convertChordNotesToMidi] using hv.2⟩
    | succ i' =>
      obtain ⟨h1, h2⟩ := convertGo_bounds rest (noteToMidi n) (by omega) i' (by simpa using hi)
      have heq : (convertChordNotesToMidi (n :: rest)).getD (i' + 1) 0 =
          (convertGo (noteToMidi n) rest).getD i' 0 := by
        simp [convertChordNotesToMidi]
      rw [heq]
      push_cast at h2 ⊢
      omega

/-- Every parsed entry's `midiNotes` come from `convertChordNotesToMidi`
applied to its own note labels. -/
theorem parseChordData_midiNotes (csvText : String) :
    ∀ entry ∈ parseChordData csvText,
      entry.midiNotes = convertChordNotesToMidi entry.notes := by
  intro entry hentry
  obtain ⟨line, -, hline⟩ := List.mem_filterMap.mp hentry
  simp only [parseLine] at hline
  split_ifs at hline
  rcases hmatch : matchCsvLine (trimChars line.data) with - | ⟨g1, g2, g3, g4⟩ <;>
    rw [hmatch] at hline
  · exact Option.noConfusion hline
  · injection hline with hline
    subst hline
    rfl

/-- C7 (amended): every pitch of every parsed entry is at least 60; the pitch
at position `i` is at most `71 + 12 * i`; hence every entry with at most 5
notes has all pitches inside [0, 127].  (The claimed unconditional upper bound
127 is refuted by `parseChordData_exceeds_midi_range` below.) -/
theorem parseChordData_pitch_bounds (csvText : String) :
    ∀ entry ∈ parseChordData csvText, ∀ i : ℕ, i < entry.midiNotes.length →
      60 ≤ entry.midiNotes.getD i 0 ∧
      entry.midiNotes.getD i 0 ≤ 71 + 12 * i ∧
      (entry.midiNotes.length ≤ 5 →
        0 ≤ entry.midiNotes.getD i 0 ∧ entry.midiNotes.getD i 0 ≤ 127) := by
  intro entry hentry i hi
  have hmidi := parseChordData_midiNotes csvText entry hentry
  have hclen := convertChordNotesToMidi_length entry.notes
  rw [hmidi] at hi ⊢
  rw [hclen] at hi
  obtain ⟨h1, h2⟩ := convertChordNotesToMidi_bounds entry.notes i hi
  refine ⟨h1, h2, fun hle => ⟨by omega, ?_⟩⟩
  rw [hclen] at hle
  have hi4 : i ≤ 4 := by omega
  omega

/-- Raw catalog text whose single data line has six notes. -/
def exampleOverflowCsv : String := "name,notes,type,ext\nX,\"B,B,B,B,B,B\",t,e"

/-- C7 (counterexample): the entry parsed from `exampleOverflowCsv` contains
the pitch 131 > 127, refuting the claimed invariant that all parsed pitch
values lie in [0, 127]. -/
theorem parseChordData_exceeds_midi_range :
    ∃ entry ∈ parseChordData exampleOverflowCsv, ∃ v ∈ entry.midiNotes, 127 < v := by
  decide

/-- Well-formed one-entry catalog text and its parsed entry, for witnesses. -/
def exampleGoodCsv : String := "name,notes,type,ext\nC,\"C,E,G\",Major,Triad"

/-- The entry parsed from `exampleGoodCsv`. -/
def exampleGoodEntry : ChordData :=
  { name := "C", notes := ["C", "E", "G"], midiNotes := [60, 64, 67],
    type := "Major", extension := "Triad" }

theorem parseChordData_pitch_bounds_witness :
    (exampleGoodEntry ∈ parseChordData exampleGoodCsv ∧
      0 < exampleGoodEntry.midiNotes.length) ∧
    (60 ≤ exampleGoodEntry.midiNotes.getD 0 0 ∧
     exampleGoodEntry.midiNotes.getD 0 0 ≤ 71 + 12 * 0 ∧
     (exampleGoodEntry.midiNotes.length ≤ 5 →
       0 ≤ exampleGoodEntry.midiNotes.getD 0 0 ∧
       exampleGoodEntry.midiNotes.getD 0 0 ≤ 127)) :=
  ⟨⟨by decide, by decide⟩,
    parseChordData_pitch_bounds exampleGoodCsv exampleGoodEntry (by decide) 0 (by decide)⟩

/-! ### C8 — malformed lines are skipped, well-formed lines parsed -/

/-- Catalog text with a malformed line between two well-formed ones. -/
def exampleMixedCsv : String := "h\nA,\"C,E\",t,e\nBADLINE\nB,\"D\",t2,e2"

/-- C8: a data line yields an entry exactly when (after trimming) it matches
the four-field record shape; a non-matching line is dropped and parsing
continues, so the parse of any line sequence containing a bad line equals the
parse of the surrounding lines — concretely, `exampleMixedCsv`'s malformed
middle line is skipped while both of its neighbours are parsed. -/
theorem parseChordData_skips_malformed (pre post : List String) (bad : String)
    (hbad : matchCsvLine (trimChars bad.data) = none) :
    parseLines (pre ++ bad :: post) = parseLines pre ++ parseLines post ∧
    (∀ line : String,
      (parseLine line).isSome = true ↔ (matchCsvLine (trimChars line.data)).isSome = true) ∧
    parseChordData exampleMixedCsv =
      [{ name := "A", notes := ["C", "E"], midiNotes := [60, 64],
         type := "t", extension := "e" },
       { name := "B", notes := ["D"], midiNotes := [62],
         type := "t2", extension := "e2" }] := by
  have hbadnone : parseLine bad = none := by
    simp only [parseLine]
    split_ifs
    · rfl
    · rw [hbad]
  refine ⟨?_, ?_, by decide⟩
  · unfold parseLines
    rw [List.filterMap_append, List.filterMap_cons, hbadnone]
  · intro line
    simp only [parseLine]
    split_ifs with ht
    · rw [ht]
      constructor <;> intro h <;> exact absurd h (by decide)
    · cases hmatch : matchCsvLine (trimChars line.data) with
      | none => simp
      | some g => simp

theorem parseChordData_skips_malformed_witness :
    matchCsvLine (trimChars ("BADLINE" : String).data) = none ∧
    (parseLines (["A,\"C,E\",t,e"] ++ "BADLINE" :: ["B,\"D\",t2,e2"]) =
        parseLines ["A,\"C,E\",t,e"] ++ parseLines ["B,\"D\",t2,e2"] ∧
     (∀ line : String,
       (parseLine line).isSome = true ↔
         (matchCsvLine (trimChars line.data)).isSome = true) ∧
     parseChordData exampleMixedCsv =
       [{ name := "A", notes := ["C", "E"], midiNotes := [60, 64],
          type := "t", extension := "e" },
        { name := "B", notes := ["D"], midiNotes := [62],
          type := "t2", extension := "e2" }]) :=
  ⟨by decide,
    parseChordData_skips_malformed ["A,\"C,E\",t,e"] ["B,\"D\",t2,e2"] "BADLINE" (by decide)⟩

/-! ### Lemmas about the lexicographic tie-break -/

theorem lexCompareChars_neg :
    ∀ (a b : List Char), lexCompareChars a b = - lexCompareChars b a := by
  intro a
  induction a with
  | nil => intro b; cases b <;> simp [lexCompareChars]
  | cons x xs ih =>
    intro b
    cases b with
    | nil => simp [lexCompareChars]
    | cons y ys =>
      simp only [lexCompareChars]
      rcases lt_trichotomy x y with h | h | h
      · simp [if_pos h, if_neg (lt_asymm h)]
      · subst h
        simp only [if_neg (lt_irrefl x)]
        exact ih ys
      · simp [if_neg (lt_asymm h), if_pos h]

theorem lexCompareChars_trans_le :
    ∀ (a b c : List Char),
      lexCompareChars a b ≤ 0 → lexCompareChars b c ≤ 0 → lexCompareChars a c ≤ 0 := by
  intro a
  induction a with
  | nil =>
    intro b c _ _
    cases c <;> simp [lexCompareChars]
  | cons x xs ih =>
    intro b c h1 h2
    cases b with
    | nil => simp [lexCompareChars] at h1
    | cons y ys =>
      cases c with
      | nil => simp [lexCompareChars] at h2
      | cons z zs =>
        simp only [lexCompareChars] at h1 h2 ⊢
        by_cases hxy : x < y
        · by_cases hyz : y < z
          · rw [if_pos (lt_trans hxy hyz)]; norm_num
          · by_cases hzy : z < y
            · rw [if_neg hyz, if_pos hzy] at h2; norm_num at h2
            · have hyzeq : y = z := le_antisymm (not_lt.mp hzy) (not_lt.mp hyz)
              subst hyzeq
              rw [if_pos hxy]; norm_num
        · by_cases hyx : y < x
          · rw [if_neg hxy, if_pos hyx] at h1; norm_num at h1
          · have hxyeq : x = y := le_antisymm (not_lt.mp hyx) (not_lt.mp hxy)
            subst hxyeq
            rw [if_neg (lt_irrefl x), if_neg (lt_irrefl x)] at h1
            by_cases hxz : x < z
            · rw [if_pos hxz]; norm_num
            · by_cases hzx : z < x
              · rw [if_neg hxz, if_pos hzx] at h2; norm_num at h2
              · have hxzeq : x = z := le_antisymm (not_lt.mp hzx) (not_lt.mp hxz)
                subst hxzeq
                rw [if_neg (lt_irrefl x), if_neg (lt_irrefl x)] at h2 ⊢
                exact ih ys zs h1 h2

/-! ### The five-tier comparator as a lexicographic key -/

/-- Packed rank of the three boolean tiers of `searchCompare` (exact match,
prefix match, simple chord), smaller meaning higher priority. -/
def tierKey (q : String) (a : ChordData) : ℕ :=
  (if toLowerStr a.name = q then 0 else 4) +
  (if q.data.isPrefixOf (toLowerStr a.name).data = true then 0 else 2) +
  (if a.type = "Major" ∧ a.extension = "Triad" then 0 else 1)

theorem lexCompareChars_refl : ∀ l : List Char, lexCompareChars l l = 0 := by
  intro l
  induction l with
  | nil => rfl
  | cons x xs ih => simp [lexCompareChars, ih]

theorem isPrefixOf_self (l : List Char) : l.isPrefixOf l = true := by
  induction l with
  | nil => rfl
  | cons x xs ih => simp [List.isPrefixOf, ih]

theorem searchCompare_le_iff (q : String) (a b : ChordData) :
    searchCompare q a b ≤ 0 ↔
      (tierKey q a < tierKey q b ∨
       (tierKey q a = tierKey q b ∧
         ((toLowerStr a.name).length < (toLowerStr b.name).length ∨
          ((toLowerStr a.name).length = (toLowerStr b.name).length ∧
           lexCompareChars (toLowerStr a.name).data (toLowerStr b.name).data ≤ 0)))) := by
  by_cases hea : toLowerStr a.name = q <;>
    by_cases heb : toLowerStr b.name = q <;>
    by_cases hpa : q.data.isPrefixOf (toLowerStr a.name).data = true <;>
    by_cases hpb : q.data.isPrefixOf (toLowerStr b.name).data = true <;>
    by_cases hsa : a.type = "Major" ∧ a.extension = "Triad" <;>
    by_cases hsb : b.type = "Major" ∧ b.extension = "Triad" <;>
    simp [searchCompare, tierKey, hea, heb, hpa, hpb, hsa, hsb, isPrefixOf_self,
      lexCompareChars_refl] <;>
    omega

theorem searchCompare_trans (q : String) (a b c : ChordData)
    (h1 : searchCompare q a b ≤ 0) (h2 : searchCompare q b c ≤ 0) :
    searchCompare q a c ≤ 0 := by
  rw [searchCompare_le_iff] at h1 h2 ⊢
  rcases h1 with h1 | ⟨hk1, h1⟩
  · rcases h2 with h2 | ⟨hk2, h2⟩ <;> exact Or.inl (by omega)
  · rcases h2 with h2 | ⟨hk2, h2⟩
    · exact Or.inl (by omega)
    · refine Or.inr ⟨by omega, ?_⟩
      rcases h1 with h1 | ⟨hl1, h1⟩
      · rcases h2 with h2 | ⟨hl2, h2⟩ <;> exact Or.inl (by omega)
      · rcases h2 with h2 | ⟨hl2, h2⟩
        · exact Or.inl (by omega)
        · exact Or.inr ⟨by omega, lexCompareChars_trans_le _ _ _ h1 h2⟩

theorem searchCompare_total (q : String) (a b : ChordData) :
    searchCompare q a b ≤ 0 ∨ searchCompare q b a ≤ 0 := by
  rw [searchCompare_le_iff, searchCompare_le_iff]
  have hneg := lexCompareChars_neg (toLowerStr a.name).data (toLowerStr b.name).data
  omega

/-! ### C4 — search contract -/

/-- Catalog used to check the concrete ranking example: an entry named exactly
"C" among others whose names contain "c". -/
def exampleCatalog : List ChordData :=
  [{ name := "Cm7", notes := [], midiNotes := [], type := "Minor", extension := "Seventh" },
   { name := "C", notes := [], midiNotes := [], type := "Major", extension := "Triad" },
   { name := "Cdim", notes := [], midiNotes := [], type := "Dim", extension := "Triad" },
   { name := "D", notes := [], midiNotes := [], type := "Major", extension := "Triad" }]

/-- In a pairwise-ordered list every kept (take) element relates to every
dropped element. -/
theorem pairwise_take_le_drop {α : Type} {R : α → α → Prop} {l : List α}
    (h : l.Pairwise R) (n : ℕ) : ∀ y ∈ l.take n, ∀ x ∈ l.drop n, R y x := by
  intro y hy x hx
  have h2 : (l.take n ++ l.drop n).Pairwise R := by
    rw [List.take_append_drop]
    exact h
  exact (List.pairwise_append.mp h2).2.2 y hy x hx

/-- C4: `searchChords` returns `[]` for a whitespace-only query without
consulting the catalog; otherwise it returns only catalog entries whose
lowercased name contains the lowercased query, at most 20 of them, ordered by
the five-tier comparator (every returned entry compares `≤ 0` against each
later one); when at most 20 entries match, every matching entry is returned;
in general the result is exactly the 20-prefix of a comparator-sorted
arrangement of all the matching entries, so whenever a matching entry is
omitted the result already holds 20 entries, each ranking no worse than the
omitted one; and on `exampleCatalog` the query "c" ranks the entry named
exactly "C" first. -/
theorem searchChords_contract (chords : List ChordData) (query : String) :
    (jsTrim query = "" → searchChords chords query = []) ∧
    (∀ x ∈ searchChords chords query,
      x ∈ chords ∧ strIncludes (toLowerStr x.name) (toLowerStr query) = true) ∧
    (searchChords chords query).length ≤ 20 ∧
    List.Pairwise (fun a b => searchCompare (toLowerStr query) a b ≤ 0)
      (searchChords chords query) ∧
    (jsTrim query ≠ "" →
      (chords.filter fun c =>
        strIncludes (toLowerStr c.name) (toLowerStr query)).length ≤ 20 →
      ∀ x ∈ chords, strIncludes (toLowerStr x.name) (toLowerStr query) = true →
        x ∈ searchChords chords query) ∧
    (jsTrim query ≠ "" →
      ∃ sorted : List ChordData,
        sorted.Perm (chords.filter fun c =>
          strIncludes (toLowerStr c.name) (toLowerStr query)) ∧
        List.Pairwise (fun a b => searchCompare (toLowerStr query) a b ≤ 0) sorted ∧
        searchChords chords query = sorted.take 20) ∧
    (jsTrim query ≠ "" →
      ∀ x ∈ chords, strIncludes (toLowerStr x.name) (toLowerStr query) = true →
        x ∉ searchChords chords query →
          (searchChords chords query).length = 20 ∧
          ∀ y ∈ searchChords chords query,
            searchCompare (toLowerStr query) y x ≤ 0) ∧
    (searchChords exampleCatalog "c").headD
        { name := "", notes := [], midiNotes := [], type := "", extension := "" } =
      { name := "C", notes := [], midiNotes := [], type := "Major", extension := "Triad" } := by
  haveI : IsTotal ChordData (fun a b => searchCompare (toLowerStr query) a b ≤ 0) :=
    ⟨fun a b => searchCompare_total _ a b⟩
  haveI : IsTrans ChordData (fun a b => searchCompare (toLowerStr query) a b ≤ 0) :=
    ⟨fun a b c => searchCompare_trans _ a b c⟩
  refine ⟨fun hq => by simp [searchChords, hq], ?_, ?_, ?_, ?_, ?_, ?_, by decide⟩
  · intro x hx
    by_cases hq : jsTrim query = ""
    · simp [searchChords, hq] at hx
    · simp only [searchChords, if_neg hq] at hx
      have hx1 := List.mem_of_mem_take hx
      have hx2 := (List.perm_insertionSort _ _).mem_iff.mp hx1
      exact ⟨(List.mem_filter.mp hx2).1, (List.mem_filter.mp hx2).2⟩
  · by_cases hq : jsTrim query = ""
    · simp [searchChords, hq]
    · simp only [searchChords, if_neg hq]
      exact List.length_take_le 20 _
  · by_cases hq : jsTrim query = ""
    · simp [searchChords, hq]
    · simp only [searchChords, if_neg hq]
      exact (List.sorted_insertionSort _ _).sublist (List.take_sublist _ _)
  · intro hq hlen x hx hmatch
    simp only [searchChords, if_neg hq]
    have hperm := List.perm_insertionSort
      (fun a b => searchCompare (toLowerStr query) a b ≤ 0)
      (chords.filter fun c => strIncludes (toLowerStr c.name) (toLowerStr query))
    have hlen2 : (List.insertionSort
        (fun a b => searchCompare (toLowerStr query) a b ≤ 0)
        (chords.filter fun c =>
          strIncludes (toLowerStr c.name) (toLowerStr query))).length ≤ 20 := by
      rw [hperm.length_eq]
      exact hlen
    rw [List.take_of_length_le hlen2]
    exact hperm.mem_iff.mpr (List.mem_filter.mpr ⟨hx, hmatch⟩)
  · intro hq
    refine ⟨List.insertionSort (fun a b => searchCompare (toLowerStr query) a b ≤ 0)
        (chords.filter fun c => strIncludes (toLowerStr c.name) (toLowerStr query)),
      List.perm_insertionSort _ _, List.sorted_insertionSort _ _, ?_⟩
    simp only [searchChords, if_neg hq]
  · intro hq x hx hmatch hnotin
    set sall := List.insertionSort (fun a b => searchCompare (toLowerStr query) a b ≤ 0)
      (chords.filter fun c => strIncludes (toLowerStr c.name) (toLowerStr query))
      with hsall
    have hunfold : searchChords chords query = sall.take 20 := by
      simp only [searchChords, if_neg hq]
    have hperm : sall.Perm (chords.filter fun c =>
        strIncludes (toLowerStr c.name) (toLowerStr query)) := by
      rw [hsall]
      exact List.perm_insertionSort _ _
    have hsorted : List.Pairwise
        (fun a b => searchCompare (toLowerStr query) a b ≤ 0) sall := by
      rw [hsall]
      exact List.sorted_insertionSort _ _
    have hxin : x ∈ sall := hperm.mem_iff.mpr (List.mem_filter.mpr ⟨hx, hmatch⟩)
    rw [hunfold] at hnotin
    have hlen20 : 20 < sall.length := by
      by_contra hcon
      push_neg at hcon
      rw [List.take_of_length_le hcon] at hnotin
      exact hnotin hxin
    refine ⟨by rw [hunfold, List.length_take]; omega, ?_⟩
    intro y hy
    rw [hunfold] at hy
    have hxdrop : x ∈ sall.drop 20 := by
      have hx2 : x ∈ sall.take 20 ++ sall.drop 20 := by
        rw [List.take_append_drop]
        exact hxin
      rcases List.mem_append.mp hx2 with h | h
      · exact absurd h hnotin
      · exact h
    exact pairwise_take_le_drop hsorted 20 y hy x hxdrop

/-! ### C10 — filtering uses the untrimmed query -/

/-- One-entry catalog whose entry is named "C". -/
def exampleCatalogC : List ChordData :=
  [{ name := "C", notes := [], midiNotes := [], type := "Major", extension := "Triad" }]

/-- C10: for a query that is nonempty after trimming, `searchChords` filters on
the original (untrimmed) query, only lowercased: every returned entry's
lowercased name contains the lowercased untrimmed query.  Concretely, on a
catalog holding the single entry "C", the query " c" (leading space) returns
nothing although the trimmed query "c" matches. -/
theorem searchChords_untrimmed_query (chords : List ChordData) (query : String) :
    (∀ x ∈ searchChords chords query,
      strIncludes (toLowerStr x.name) (toLowerStr query) = true) ∧
    searchChords exampleCatalogC " c" = [] ∧
    searchChords exampleCatalogC "c" = exampleCatalogC := by
  refine ⟨?_, by decide, by decide⟩
  intro x hx
  by_cases hq : jsTrim query = ""
  · simp [searchChords, hq] at hx
  · simp only [searchChords, if_neg hq] at hx
    have hx1 := List.mem_of_mem_take hx
    have hx2 := (List.perm_insertionSort _ _).mem_iff.mp hx1
    exact (List.mem_filter.mp hx2).2

/-! ### C9 — the two `calculateVoicings` variants -/

/-- Strictly ascending four-note chord (C7 chord, authored in order). -/
def exampleFourAscending : ChordData :=
  { name := "C7", notes := [], midiNotes := [60, 64, 67, 70], type := "", extension := "" }

/-- C9 (counterexample): the two implementations do not agree on every entry
with strictly ascending `midiNotes`: on the ascending four-note chord
`exampleFourAscending` the order-preserving variant emits four voicings while
the sort-based variant emits only three. -/
theorem calculateVoicings_variants_differ :
    List.Chain' (· < ·) exampleFourAscending.midiNotes ∧
    ChordDatabase.calculateVoicings exampleFourAscending ≠
      calculateVoicings exampleFourAscending ∧
    (ChordDatabase.calculateVoicings exampleFourAscending).length = 3 ∧
    (calculateVoicings exampleFourAscending).length = 4 := by
  refine ⟨by norm_num [exampleFourAscending, List.chain'_cons], by decide, by decide, by decide⟩

/-- C9 (amended): the sort-based and order-preserving variants produce equal
voicing sequences on every entry whose `midiNotes` are strictly increasing
with at most three notes, all at most 71, and all within one octave above the
first note.  (Outside these conditions they can diverge even on ascending
input: see `calculateVoicings_variants_differ`.) -/
theorem calculateVoicings_variants_agree (entry : ChordData)
    (hs : List.Chain' (· < ·) entry.midiNotes)
    (hlen : entry.midiNotes.length ≤ 3)
    (hhi : ∀ x ∈ entry.midiNotes, x ≤ 71)
    (hspan : ∀ x ∈ entry.midiNotes, x < entry.midiNotes.headD 0 + 12) :
    ChordDatabase.calculateVoicings entry = calculateVoicings entry := by
  obtain ⟨name, notes, midiNotes, ty, ext⟩ := entry
  simp only at hs hlen hhi hspan ⊢
  match midiNotes, hs, hlen, hhi, hspan with
  | [], _, _, _, _ => rfl
  | [a], _, _, _, _ =>
    simp [ChordDatabase.calculateVoicings, calculateVoicings, List.insertionSort,
      List.orderedInsert, List.range']
  | [a, b], hs, hlen, hhi, hspan =>
    have hab : a < b := by simp [List.chain'_cons] at hs; exact hs
    have ha71 : a ≤ 71 := hhi a (by simp)
    have hb12 : b < a + 12 := by simpa using hspan b (by simp)
    have h1 : bumpAbove b (a + 12) = a + 12 := bumpAbove_of_gt (by omega)
    have hab' : a ≤ b := le_of_lt hab
    have hnab : ¬ (a + 12 ≤ b) := by omega
    simp [ChordDatabase.calculateVoicings, calculateVoicings, List.insertionSort,
      List.orderedInsert, List.range', ChordDatabase.raiseFirst, makeInversion,
      renormalize, renormGo, listMax, h1, hab', hnab, inversionName]
    split_ifs <;> first | rfl | (exfalso; omega)
  | [a, b, c], hs, hlen, hhi, hspan =>
    have habc : a < b ∧ b < c := by simpa [List.chain'_cons] using hs
    obtain ⟨hab, hbc⟩ := habc
    have ha71 : a ≤ 71 := hhi a (by simp)
    have hb71 : b ≤ 71 := hhi b (by simp)
    have hb12 : b < a + 12 := by simpa using hspan b (by simp)
    have hc12 : c < a + 12 := by simpa using hspan c (by simp)
    have h1 : bumpAbove b c = c := bumpAbove_of_gt hbc
    have h2 : bumpAbove c (a + 12) = a + 12 := bumpAbove_of_gt (by omega)
    have h3 : bumpAbove (a + 12) (b + 12) = b + 12 := bumpAbove_of_gt (by omega)
    have hab' : a ≤ b := le_of_lt hab
    have hbc' : b ≤ c := le_of_lt hbc
    have hnab : ¬ (a + 12 ≤ b) := by omega
    have hnac : ¬ (a + 12 ≤ c) := by omega
    have hnbc : ¬ (b + 12 ≤ c) := by omega
    have habb : a + 12 ≤ b + 12 := by omega
    simp [ChordDatabase.calculateVoicings, calculateVoicings, List.insertionSort,
      List.orderedInsert, List.range', ChordDatabase.raiseFirst,
      ChordDatabase.raiseFirstTwo, makeInversion, renormalize, renormGo, listMax,
      h1, h2, h3, hab', hbc', hnab, hnac, hnbc, habb, inversionName]
    split_ifs <;> first | rfl | exact ⟨rfl, rfl⟩ | (exfalso; omega)

theorem calculateVoicings_variants_agree_witness :
    (List.Chain' (· < ·) exampleCMajor.midiNotes ∧
     exampleCMajor.midiNotes.length ≤ 3 ∧
     (∀ x ∈ exampleCMajor.midiNotes, x ≤ 71) ∧
     (∀ x ∈ exampleCMajor.midiNotes, x < exampleCMajor.midiNotes.headD 0 + 12)) ∧
    ChordDatabase.calculateVoicings exampleCMajor = calculateVoicings exampleCMajor :=
  ⟨⟨by norm_num [exampleCMajor, List.chain'_cons], by decide, by decide, by decide⟩,
    calculateVoicings_variants_agree exampleCMajor
      (by norm_num [exampleCMajor, List.chain'_cons]) (by decide) (by decide) (by decide)⟩
